import Mathlib

/-!
Verification of the Orion OpenFHE backend's two core subsystems:
the `HeapAllocator` integer-handle arena (`include/minheap.hpp`) and the
baby-step/giant-step linear-transform evaluator
(`src/linear_transform.cpp`).

Scalars (C++ `double`) are modelled as rationals `ℚ`; an encrypted,
slot-packed vector is modelled by its decoded slot vector `List ℚ`, with
`EvalRotate` a cyclic slot shift, `EvalMult` by a scalar a slot-wise
scaling, and `EvalAdd` a slot-wise sum.  Machine `size_t` arithmetic is
`ℕ`, with an explicit `% 2^64` where the source can wrap.
-/

/-! ## Scalar and slot-vector primitives -/

/-- The tolerance `1e-10` used by the evaluator to skip negligible
coefficients (`linear_transform.cpp`). -/
def tol : ℚ := 1 / 10 ^ 10

/-- Sum of `f 0 + f 1 + ... + f (n-1)`, the shape of the C++ `for` loops
accumulating into a scalar. -/
def sumR (n : ℕ) (f : ℕ → ℚ) : ℚ := ((List.range n).map f).sum

/-- Decoded effect of `EvalRotate(ct, k)`: cyclic left shift of the slot
vector by `k`, so slot `i` of the result holds slot `(i+k) mod n` of the
input. -/
def rotL (v : List ℚ) (k : ℕ) : List ℚ :=
  (List.range v.length).map (fun i => v.getD ((i + k) % v.length) 0)

/-- Decoded effect of `EvalMult(ct, c)` with a scalar constant `c`:
slot-wise scaling. -/
def smulV (c : ℚ) (v : List ℚ) : List ℚ := v.map (fun a => c * a)

/-- Decoded effect of `EvalAdd(ct1, ct2)`: slot-wise addition. -/
def addV (u v : List ℚ) : List ℚ := List.zipWith (fun a b => a + b) u v

/-! ## Integer square root

`linear_transform.cpp` computes `static_cast<size_t>(std::sqrt(cols))`,
the floor of the square root (exact for every realistic slot count).
`isqrt` is a fuel-based executable floor square root so that concrete
instances reduce inside the kernel. -/

def isqrtGo (m : ℕ) : ℕ → ℕ → ℕ
  | 0, k => k
  | fuel + 1, k => if (k + 1) * (k + 1) ≤ m then isqrtGo m fuel (k + 1) else k

/-- Floor of the square root of `m`. -/
def isqrt (m : ℕ) : ℕ := isqrtGo m m 0

/-- `ceil(sqrt n)`, written from the spec's words (`b = ceil(sqrt(cols))`)
for comparison against the source's baby-step size. -/
def ceilSqrt (n : ℕ) : ℕ := if isqrt n * isqrt n = n then isqrt n else isqrt n + 1

/-! ## The Transform value object (`OrionLinearTransform`) -/

/-- State of an `OrionLinearTransform`: dimensions, the 2-D coefficient
matrix, and the `initialized` flag. -/
structure OLT where
  rows : ℕ
  cols : ℕ
  matrix : List (List ℚ)
  initialized : Bool
deriving DecidableEq, Repr

/-- `OrionLinearTransform(transform_matrix, num_rows, num_cols)`: the
flat row-major constructor.  On a size mismatch it leaves the matrix
empty and the transform uninitialized. -/
def oltFromFlat (vals : List ℚ) (numRows numCols : ℕ) : OLT :=
  if vals.length ≠ numRows * numCols then
    { rows := numRows, cols := numCols, matrix := [], initialized := false }
  else
    { rows := numRows, cols := numCols,
      matrix := (List.range numRows).map (fun i =>
        (List.range numCols).map (fun j => vals.getD (i * numCols + j) 0)),
      initialized := true }

/-- `OrionLinearTransform(transform_matrix)`: the nested (2-D)
constructor.  An empty input sets `rows = cols = 0` and returns before
`initialized` is ever set; inconsistent row lengths clear the matrix and
leave the transform uninitialized. -/
def oltFromRows (m : List (List ℚ)) : OLT :=
  if m.isEmpty then
    { rows := 0, cols := 0, matrix := m, initialized := false }
  else if m.all (fun row => row.length = (m.headD []).length) then
    { rows := m.length, cols := (m.headD []).length, matrix := m, initialized := true }
  else
    { rows := 0, cols := 0, matrix := [], initialized := false }

/-- `CreateLinearTransform` (nested overload): builds the transform and
stores it only when `IsInitialized()`; otherwise reports failure (`-1`),
modelled as `none`. -/
def createLinearTransformRows (m : List (List ℚ)) : Option OLT :=
  if (oltFromRows m).initialized then some (oltFromRows m) else none

/-- The plaintext `OrionLinearTransform::Apply(input)`: errors (empty
result, modelled `none`) when uninitialized or when `input.size() != cols`;
otherwise `result[i] = Σ_j matrix[i][j] * input[j]`. -/
def OLT.applyPlain (t : OLT) (input : List ℚ) : Option (List ℚ) :=
  if t.initialized = true then
    if input.length = t.cols then
      some ((List.range t.rows).map (fun i =>
        sumR t.cols (fun j => (t.matrix.getD i []).getD j 0 * input.getD j 0)))
    else none
  else none

/-- `OrionLinearTransform::ValidateDimensions(input_size)`. -/
def OLT.validateDimensions (t : OLT) (inputSize : ℕ) : Bool :=
  t.initialized && inputSize = t.cols

/-! ## The encrypted BSGS `Apply` -/

/-- `baby_step_size = static_cast<size_t>(std::sqrt(cols)) + 1`. -/
def babyStepSize (cols : ℕ) : ℕ := isqrt cols + 1

/-- `num_giant_steps = (cols + baby_step_size - 1) / baby_step_size`. -/
def numGiantSteps (cols : ℕ) : ℕ :=
  (cols + babyStepSize cols - 1) / babyStepSize cols

/-- The baby-step ciphertexts: the input unrotated, then
`EvalRotate(ciphertext, k)` for `k = 1` while `k < baby_step_size && k < cols`. -/
def encBabySteps (cols : ℕ) (x : List ℚ) : List (List ℚ) :=
  x :: (List.range' 1 (min (babyStepSize cols) cols - 1)).map (fun k => rotL x k)

/-- `giant_step_coeffs[j]` for giant step `k`: row 0's entry at column
`k*b + j` when that column index is below both `cols` and `matrix[0].size()`,
else the `0.0` the vector was filled with. -/
def giantCoeff (row0 : List ℚ) (cols b k j : ℕ) : ℚ :=
  if k * b + j < cols ∧ k * b + j < row0.length then row0.getD (k * b + j) 0 else 0

/-- The `has_nonzero` flag for giant step `k`: some in-range coefficient
of row 0 exceeds the tolerance in magnitude. -/
def giantHasNonzero (row0 : List ℚ) (cols b k : ℕ) : Bool :=
  (List.range b).any (fun j =>
    decide (k * b + j < cols) && decide (k * b + j < row0.length) &&
    decide (tol < |row0.getD (k * b + j) 0|))

/-- The inner (baby-step) accumulation for giant step `k`: starting from
`EvalMult(ciphertext, 0.0)`, add `coeff * baby_steps[j]` for every `j`
below `baby_step_size` and `baby_steps.size()` whose coefficient exceeds
the tolerance. -/
def giantInner (row0 : List ℚ) (cols b k : ℕ) (x : List ℚ) (baby : List (List ℚ)) :
    List ℚ :=
  (List.range (min b baby.length)).foldl
    (fun acc j =>
      if tol < |giantCoeff row0 cols b k j| then
        addV acc (smulV (giantCoeff row0 cols b k j) (baby.getD j []))
      else acc)
    (smulV 0 x)

/-- The encrypted `OrionLinearTransform::Apply(context, ciphertext, keys)`
on the decoded slot vector: throws (modelled `none`) when uninitialized,
else runs the baby-step/giant-step schedule over row 0 of the matrix. -/
def encApply (t : OLT) (x : List ℚ) : Option (List ℚ) :=
  if t.initialized = true then
    some ((List.range (numGiantSteps t.cols)).foldl
      (fun acc k =>
        if giantHasNonzero (t.matrix.headD []) t.cols (babyStepSize t.cols) k then
          addV acc
            (if 0 < k * babyStepSize t.cols then
              rotL (giantInner (t.matrix.headD []) t.cols (babyStepSize t.cols) k x
                (encBabySteps t.cols x)) (k * babyStepSize t.cols)
            else
              giantInner (t.matrix.headD []) t.cols (babyStepSize t.cols) k x
                (encBabySteps t.cols x))
        else acc)
      (smulV 0 x))
  else none

/-- Written from the spec's words: the naive single-pass application of
row 0, `decoded[i] = Σ_j matrix[0][j] * x[(i+j) mod slots]`. -/
def bsgsNaive (t : OLT) (x : List ℚ) : List ℚ :=
  (List.range x.length).map (fun i =>
    sumR t.cols (fun j =>
      (t.matrix.headD []).getD j 0 * x.getD ((i + j) % x.length) 0))


/-- The contribution of matrix column `m` to output slot `i`:
`matrix[0][m] * x[(i+m) mod slots]` when `m < cols`, else `0`. -/
def colTerm (row0 : List ℚ) (cols : ℕ) (x : List ℚ) (i m : ℕ) : ℚ :=
  if m < cols then row0.getD m 0 * x.getD ((i + m) % x.length) 0 else 0

/-! ## Rotation-key queries exposed to callers -/

/-- `GetLinearTransformRotationKeys(transform_id, out, max_keys)`:
errors on a null/empty output buffer, else writes the offsets
`1, 2, …, min(cols - 1, max_keys)` where `cols - 1` is computed in
`size_t` (wrapping at `2^64` when `cols = 0`). -/
def getLTRotationKeys (t : OLT) (maxKeys : ℕ) : Option (List ℕ) :=
  if maxKeys = 0 then none
  else
    some ((List.range (min ((t.cols + (2 ^ 64 - 1)) % 2 ^ 64) maxKeys)).map
      (fun i => i + 1))

/-- `GetLinearTransformRotationKeysArray(transform_id)`: always reports a
single required offset, `[1]`, whatever the transform's contents. -/
def getLTRotationKeysArray (_t : OLT) : List ℕ := [1]

/-- Written from the spec's words: the BSGS rotation-offset requirement
`{1,…,b-1} ∪ {b, 2b, …, (g-1)·b}` with `b = ceil(sqrt(cols))` and
`g = ceil(cols/b)`. -/
def bsgsKeySpec (cols : ℕ) : List ℕ :=
  ((List.range (ceilSqrt cols)).filter (fun j => decide (1 ≤ j))) ++
  ((List.range ((cols + ceilSqrt cols - 1) / ceilSqrt cols)).filter
      (fun k => decide (1 ≤ k))).map (fun k => k * ceilSqrt cols)

/-! ## The HeapAllocator arena (`minheap.hpp`) -/

/-- State of a `HeapAllocator`: the fresh-id counter `nextInt`, the
min-heap of freed ids (as the multiset of its elements), and the
id-to-object table.  A stored "pointer" is `Option ℕ`, `none` standing
for a null `shared_ptr`. -/
structure HeapState where
  nextInt : ℕ
  freed : List ℕ
  objectMap : List (ℕ × Option ℕ)
deriving DecidableEq, Repr

/-- `freedIntegers.top()` of a min-heap: the least element. -/
def heapTop : List ℕ → ℕ
  | [] => 0
  | x :: xs => xs.foldl min x

/-- `objectMap[k] = v` on an `unordered_map`: overwrite any entry at key
`k`. -/
def mapInsert (k : ℕ) (v : Option ℕ) (m : List (ℕ × Option ℕ)) :
    List (ℕ × Option ℕ) :=
  (k, v) :: m.filter (fun p => p.1 ≠ k)

/-- `HeapAllocator::Add(obj)`: pop the smallest freed id if any exists,
else take `nextInt++`; store `make_shared<T>(obj)` (never null) at the
allocated id and return it. -/
def hAdd (s : HeapState) (v : ℕ) : ℕ × HeapState :=
  if s.freed.isEmpty then
    (s.nextInt,
      { nextInt := s.nextInt + 1, freed := s.freed,
        objectMap := mapInsert s.nextInt (some v) s.objectMap })
  else
    (heapTop s.freed,
      { nextInt := s.nextInt, freed := s.freed.erase (heapTop s.freed),
        objectMap := mapInsert (heapTop s.freed) (some v) s.objectMap })

/-- `HeapAllocator::Delete(id)`: erase the entry and push `id` onto the
freed heap when `id` is in the table, else report `false` untouched. -/
def hDelete (s : HeapState) (id : ℕ) : Bool × HeapState :=
  match s.objectMap.lookup id with
  | some _ =>
    (true,
      { nextInt := s.nextInt, freed := id :: s.freed,
        objectMap := s.objectMap.filter (fun p => p.1 ≠ id) })
  | none => (false, s)

/-- Result of `Retrieve<T>` / `GetSharedPtr<T>`: not found, the
"Invalid type cast" error, or the stored value. -/
inductive HeapGetResult where
  | notFound
  | invalidCast
  | found (v : ℕ)
deriving DecidableEq, Repr

/-- `std::static_pointer_cast<T>` on a stored `shared_ptr<void>`: yields
a null pointer exactly when the input is null. -/
def castVoidPtr (p : Option ℕ) : Option ℕ := p

/-- `HeapAllocator::Retrieve<T>(id)`: "Heap object not found" when `id`
is absent; "Invalid type cast" when the cast pointer is null; else the
stored object. -/
def hRetrieve (s : HeapState) (id : ℕ) : HeapGetResult :=
  match s.objectMap.lookup id with
  | none => .notFound
  | some p =>
    match castVoidPtr p with
    | none => .invalidCast
    | some v => .found v

/-- `HeapAllocator::GetSharedPtr<T>(id)`: same lookup-then-cast shape as
`Retrieve`. -/
def hGetSharedPtr (s : HeapState) (id : ℕ) : HeapGetResult :=
  match s.objectMap.lookup id with
  | none => .notFound
  | some p =>
    match castVoidPtr p with
    | none => .invalidCast
    | some v => .found v

/-- `HeapAllocator::Exists(id)`. -/
def hExists (s : HeapState) (id : ℕ) : Bool :=
  (s.objectMap.lookup id).isSome

/-- The freshly constructed allocator, `HeapAllocator() : nextInt(0)`. -/
def hInit : HeapState := { nextInt := 0, freed := [], objectMap := [] }

/-- The arena states reachable from a fresh allocator by any sequence of
`Add` and `Delete` calls. -/
inductive HeapReach : HeapState → Prop where
  | start : HeapReach hInit
  | add (s : HeapState) (v : ℕ) : HeapReach s → HeapReach (hAdd s v).2
  | del (s : HeapState) (id : ℕ) : HeapReach s → HeapReach (hDelete s id).2

/-- Invariant of every reachable `HeapAllocator` state: table keys are
unique, the freed pool has no duplicates, no freed id is live, all ids
are below the fresh counter, and every stored pointer is non-null. -/
def HeapInv (s : HeapState) : Prop :=
  (s.objectMap.map Prod.fst).Nodup ∧
  s.freed.Nodup ∧
  (∀ id ∈ s.freed, s.objectMap.lookup id = none) ∧
  (∀ id ∈ s.freed, id < s.nextInt) ∧
  (∀ p ∈ s.objectMap, p.1 < s.nextInt) ∧
  (∀ p ∈ s.objectMap, p.2.isSome = true)

/-! ## Heap allocator: supporting lemmas -/

theorem foldl_min_le_start (xs : List ℕ) (x : ℕ) : xs.foldl min x ≤ x := by
  induction xs generalizing x with
  | nil => exact Nat.le_refl x
  | cons y ys ih => exact Nat.le_trans (ih (min x y)) (Nat.min_le_left x y)

theorem foldl_min_le_mem (xs : List ℕ) (x a : ℕ) (ha : a ∈ xs) :
    xs.foldl min x ≤ a := by
  induction xs generalizing x with
  | nil => cases ha
  | cons y ys ih =>
    rcases List.mem_cons.mp ha with h | h
    · subst h
      exact Nat.le_trans (foldl_min_le_start ys (min x a)) (Nat.min_le_right x a)
    · exact ih (min x y) h

theorem foldl_min_mem (xs : List ℕ) (x : ℕ) :
    xs.foldl min x = x ∨ xs.foldl min x ∈ xs := by
  induction xs generalizing x with
  | nil => exact Or.inl rfl
  | cons y ys ih =>
    rw [List.foldl_cons]
    rcases ih (min x y) with h | h
    · rcases min_choice x y with hm | hm
      · exact Or.inl (by rw [h, hm])
      · exact Or.inr (by rw [h, hm]; exact List.mem_cons_self y ys)
    · exact Or.inr (List.mem_cons_of_mem y h)

theorem heapTop_mem (l : List ℕ) (h : l ≠ []) : heapTop l ∈ l := by
  match l with
  | [] => exact absurd rfl h
  | x :: xs =>
    show xs.foldl min x ∈ x :: xs
    rcases foldl_min_mem xs x with h' | h'
    · rw [h']; exact List.mem_cons_self x xs
    · exact List.mem_cons_of_mem x h'

theorem heapTop_le (l : List ℕ) (a : ℕ) (ha : a ∈ l) : heapTop l ≤ a := by
  match l with
  | [] => cases ha
  | x :: xs =>
    show xs.foldl min x ≤ a
    rcases List.mem_cons.mp ha with h | h
    · subst h; exact foldl_min_le_start xs a
    · exact foldl_min_le_mem xs x a h

theorem lookup_cons_unfold (a : ℕ) (b : Option ℕ) (m : List (ℕ × Option ℕ)) (k : ℕ) :
    ((a, b) :: m).lookup k = if k = a then some b else m.lookup k := by
  by_cases h : k = a
  · simp [List.lookup, h]
  · have hb : (k == a) = false := beq_eq_false_iff_ne.mpr h
    simp [List.lookup, h, hb]

theorem lookup_some_mem (m : List (ℕ × Option ℕ)) (k : ℕ) (v : Option ℕ)
    (h : m.lookup k = some v) : (k, v) ∈ m := by
  induction m with
  | nil => cases h
  | cons p m ih =>
    obtain ⟨a, b⟩ := p
    rw [lookup_cons_unfold] at h
    by_cases hk : k = a
    · rw [if_pos hk] at h
      exact List.mem_cons.mpr (Or.inl (by rw [hk, Option.some_inj.mp h]))
    · rw [if_neg hk] at h
      exact List.mem_cons_of_mem _ (ih h)

theorem lookup_eq_none_iff (m : List (ℕ × Option ℕ)) (k : ℕ) :
    m.lookup k = none ↔ k ∉ m.map Prod.fst := by
  induction m with
  | nil => simp
  | cons p m ih =>
    obtain ⟨a, b⟩ := p
    rw [lookup_cons_unfold]
    by_cases hk : k = a
    · simp [hk]
    · simp [if_neg hk, ih, hk]

theorem lookup_filter_self (m : List (ℕ × Option ℕ)) (k : ℕ) :
    (m.filter (fun p => p.1 ≠ k)).lookup k = none := by
  rw [lookup_eq_none_iff]
  intro hmem
  rcases List.mem_map.mp hmem with ⟨p, hp, hpk⟩
  have := List.of_mem_filter hp
  simp [hpk] at this

theorem lookup_filter_other (m : List (ℕ × Option ℕ)) (k j : ℕ) (h : j ≠ k) :
    (m.filter (fun p => p.1 ≠ k)).lookup j = m.lookup j := by
  induction m with
  | nil => rfl
  | cons p m ih =>
    obtain ⟨a, b⟩ := p
    by_cases hp : a = k
    · rw [List.filter_cons_of_neg (by simp [hp]), ih, lookup_cons_unfold,
        if_neg (by rw [hp]; exact h)]
    · rw [List.filter_cons_of_pos (by simp [hp]), lookup_cons_unfold,
        lookup_cons_unfold, ih]

theorem lookup_mapInsert_self (m : List (ℕ × Option ℕ)) (k : ℕ) (v : Option ℕ) :
    (mapInsert k v m).lookup k = some v := by
  rw [mapInsert, lookup_cons_unfold, if_pos rfl]

theorem lookup_mapInsert_other (m : List (ℕ × Option ℕ)) (k j : ℕ) (v : Option ℕ)
    (h : j ≠ k) : (mapInsert k v m).lookup j = m.lookup j := by
  rw [mapInsert, lookup_cons_unfold, if_neg h, lookup_filter_other m k j h]

theorem mem_mapInsert (m : List (ℕ × Option ℕ)) (k : ℕ) (v : Option ℕ)
    (p : ℕ × Option ℕ) (hp : p ∈ mapInsert k v m) : p = (k, v) ∨ p ∈ m := by
  rcases List.mem_cons.mp hp with h | h
  · exact Or.inl h
  · exact Or.inr (List.mem_of_mem_filter h)

theorem keys_nodup_mapInsert (m : List (ℕ × Option ℕ)) (k : ℕ) (v : Option ℕ)
    (h : (m.map Prod.fst).Nodup) : ((mapInsert k v m).map Prod.fst).Nodup := by
  rw [mapInsert, List.map_cons, List.nodup_cons]
  constructor
  · intro hmem
    rcases List.mem_map.mp hmem with ⟨p, hp, hpk⟩
    have := List.of_mem_filter hp
    simp [hpk] at this
  · exact h.sublist ((List.filter_sublist m).map Prod.fst)

/-! ## Heap allocator: the reachable-state invariant -/

theorem heapInv_init : HeapInv hInit := by
  refine ⟨List.nodup_nil, List.nodup_nil, ?_, ?_, ?_, ?_⟩ <;> simp [hInit]

theorem heapInv_add (s : HeapState) (v : ℕ) (h : HeapInv s) : HeapInv (hAdd s v).2 := by
  obtain ⟨hkeys, hfree, hlook, hflt, hklt, hsome⟩ := h
  by_cases he : s.freed.isEmpty
  · have hfe : s.freed = [] := List.isEmpty_iff.mp he
    rw [hAdd, if_pos he]
    refine ⟨keys_nodup_mapInsert _ _ _ hkeys, hfree, ?_, ?_, ?_, ?_⟩
    · intro id hid; rw [hfe] at hid; cases hid
    · intro id hid; rw [hfe] at hid; cases hid
    · intro p hp
      rcases mem_mapInsert _ _ _ p hp with h | h
      · rw [h]; exact Nat.lt_succ_self _
      · exact Nat.lt_succ_of_lt (hklt p h)
    · intro p hp
      rcases mem_mapInsert _ _ _ p hp with h | h
      · rw [h]; rfl
      · exact hsome p h
  · have hne : s.freed ≠ [] := fun hc => he (by rw [hc]; rfl)
    have htm : heapTop s.freed ∈ s.freed := heapTop_mem _ hne
    rw [hAdd, if_neg he]
    refine ⟨keys_nodup_mapInsert _ _ _ hkeys, hfree.erase _, ?_, ?_, ?_, ?_⟩
    · intro id hid
      have hid' := (List.Nodup.mem_erase_iff hfree).mp hid
      rw [lookup_mapInsert_other _ _ _ _ hid'.1]
      exact hlook id hid'.2
    · intro id hid
      exact hflt id (List.erase_subset _ _ hid)
    · intro p hp
      rcases mem_mapInsert _ _ _ p hp with h | h
      · rw [h]; exact hflt _ htm
      · exact hklt p h
    · intro p hp
      rcases mem_mapInsert _ _ _ p hp with h | h
      · rw [h]; rfl
      · exact hsome p h

theorem heapInv_del (s : HeapState) (id : ℕ) (h : HeapInv s) :
    HeapInv (hDelete s id).2 := by
  obtain ⟨hkeys, hfree, hlook, hflt, hklt, hsome⟩ := h
  cases hl : s.objectMap.lookup id with
  | none =>
    simp only [hDelete, hl]
    exact ⟨hkeys, hfree, hlook, hflt, hklt, hsome⟩
  | some p0 =>
    have hidlive : (id, p0) ∈ s.objectMap := lookup_some_mem _ _ _ hl
    have hidnf : id ∉ s.freed := by
      intro hc
      rw [hlook id hc] at hl
      cases hl
    simp only [hDelete, hl]
    refine ⟨hkeys.sublist ((List.filter_sublist _).map Prod.fst),
      List.nodup_cons.mpr ⟨hidnf, hfree⟩, ?_, ?_, ?_, ?_⟩
    · intro j hj
      rcases List.mem_cons.mp hj with h | h
      · rw [h]; exact lookup_filter_self _ _
      · have hjid : j ≠ id := by
          intro hc
          rw [hc] at h
          rw [hlook id h] at hl
          cases hl
        rw [lookup_filter_other _ _ _ hjid]
        exact hlook j h
    · intro j hj
      rcases List.mem_cons.mp hj with h | h
      · rw [h]; exact hklt _ hidlive
      · exact hflt j h
    · intro p hp
      exact hklt p (List.mem_of_mem_filter hp)
    · intro p hp
      exact hsome p (List.mem_of_mem_filter hp)

theorem heapInv_reach (s : HeapState) (h : HeapReach s) : HeapInv s := by
  induction h with
  | start => exact heapInv_init
  | add s v _ ih => exact heapInv_add s v ih
  | del s id _ ih => exact heapInv_del s id ih

/-! ## Claim theorems: the arena -/

/-- C4: `HeapAllocator::Add` always succeeds; when the freed pool is
non-empty it returns the pool's smallest id (removing it, leaving the
fresh counter untouched, and any further pool reuse returns a strictly
larger id), and when the pool is empty it returns the fresh counter and
increments it.  Freed ids are therefore reused in ascending order, and
always (being below `nextInt`) before any fresh id is minted. -/
theorem heap_add_min_reuse (s : HeapState) (v : ℕ) (hs : HeapReach s) :
    (s.freed = [] → (hAdd s v).1 = s.nextInt ∧ (hAdd s v).2.nextInt = s.nextInt + 1) ∧
    (s.freed ≠ [] →
      (hAdd s v).1 ∈ s.freed ∧
      (∀ a ∈ s.freed, (hAdd s v).1 ≤ a) ∧
      (hAdd s v).1 < s.nextInt ∧
      (hAdd s v).2.nextInt = s.nextInt ∧
      (hAdd s v).2.freed = s.freed.erase (hAdd s v).1 ∧
      (∀ w, (hAdd s v).2.freed ≠ [] → (hAdd s v).1 < (hAdd (hAdd s v).2 w).1)) := by
  obtain ⟨-, hfree, -, hflt, -, -⟩ := heapInv_reach s hs
  constructor
  · intro hfe
    have he : s.freed.isEmpty := by rw [hfe]; rfl
    rw [hAdd, if_pos he]
    exact ⟨rfl, rfl⟩
  · intro hne
    have he : ¬ s.freed.isEmpty = true := fun hc => hne (List.isEmpty_iff.mp hc)
    rw [hAdd, if_neg he]
    refine ⟨heapTop_mem _ hne, fun a ha => heapTop_le _ a ha,
      hflt _ (heapTop_mem _ hne), rfl, rfl, ?_⟩
    intro w hne2
    have he2 : ¬ (s.freed.erase (heapTop s.freed)).isEmpty = true := by
      intro hc
      exact hne2 (List.isEmpty_iff.mp hc)
    show heapTop s.freed < (hAdd _ w).1
    rw [hAdd, if_neg he2]
    have htm2 : heapTop (s.freed.erase (heapTop s.freed)) ∈
        s.freed.erase (heapTop s.freed) := heapTop_mem _ hne2
    have h2 := (List.Nodup.mem_erase_iff hfree).mp htm2
    exact Nat.lt_of_le_of_ne (heapTop_le _ _ h2.2) (Ne.symm h2.1)

/-- C4 witness: on the reachable state with freed pool `[0]` and counter
`1`, `Add` returns the freed id `0`. -/
theorem heap_add_min_reuse_witness :
    (hAdd (hDelete (hAdd hInit 7).2 0).2 5).1 ∈ (hDelete (hAdd hInit 7).2 0).2.freed := by
  have h := heap_add_min_reuse (hDelete (hAdd hInit 7).2 0).2 5
    (HeapReach.del _ 0 (HeapReach.add _ 7 HeapReach.start))
  exact (h.2 (by decide)).1

/-- C5: invariants of every state reachable by `Add`/`Delete` from a
fresh allocator: at most one entry per live id, the freed pool has no
duplicates and is disjoint from the live ids, and the handle the next
`Add` returns is not live at the moment it is returned. -/
theorem heap_arena_invariants (s : HeapState) (hs : HeapReach s) :
    (s.objectMap.map Prod.fst).Nodup ∧
    s.freed.Nodup ∧
    (∀ id ∈ s.freed, s.objectMap.lookup id = none) ∧
    (∀ v : ℕ, s.objectMap.lookup (hAdd s v).1 = none) := by
  obtain ⟨hkeys, hfree, hlook, hflt, hklt, hsome⟩ := heapInv_reach s hs
  refine ⟨hkeys, hfree, hlook, ?_⟩
  intro v
  by_cases he : s.freed.isEmpty
  · rw [hAdd, if_pos he]
    cases hl : s.objectMap.lookup s.nextInt with
    | none => rfl
    | some p0 =>
      have := hklt _ (lookup_some_mem _ _ _ hl)
      exact absurd this (Nat.lt_irrefl _)
  · have hne : s.freed ≠ [] := fun hc => he (by rw [hc]; rfl)
    rw [hAdd, if_neg he]
    exact hlook _ (heapTop_mem _ hne)

/-- C5 witness: the invariants evaluated on the concrete reachable state
with one deleted id. -/
theorem heap_arena_invariants_witness :
    (hDelete (hAdd hInit 7).2 0).2.objectMap.lookup
      (hAdd (hDelete (hAdd hInit 7).2 0).2 5).1 = none :=
  (heap_arena_invariants (hDelete (hAdd hInit 7).2 0).2
    (HeapReach.del _ 0 (HeapReach.add _ 7 HeapReach.start))).2.2.2 5

/-- C6: `HeapAllocator::Delete(id)` returns `false` and leaves the whole
state unchanged when `id` is not live; when `id` is live it removes the
entry (other ids untouched), pushes `id` onto the freed pool, returns
`true`, and a subsequent `Retrieve`/`Exists` of `id` reports not-found. -/
theorem heap_delete_semantics (s : HeapState) (id : ℕ) :
    (s.objectMap.lookup id = none → hDelete s id = (false, s)) ∧
    (∀ p, s.objectMap.lookup id = some p →
      (hDelete s id).1 = true ∧
      (hDelete s id).2.nextInt = s.nextInt ∧
      (hDelete s id).2.freed = id :: s.freed ∧
      (hDelete s id).2.objectMap.lookup id = none ∧
      hRetrieve (hDelete s id).2 id = HeapGetResult.notFound ∧
      hExists (hDelete s id).2 id = false ∧
      (∀ j, j ≠ id → (hDelete s id).2.objectMap.lookup j = s.objectMap.lookup j)) := by
  constructor
  · intro hl
    simp only [hDelete, hl]
  · intro p hl
    have hd : hDelete s id =
        (true, { nextInt := s.nextInt, freed := id :: s.freed,
                 objectMap := s.objectMap.filter (fun p => p.1 ≠ id) }) := by
      simp only [hDelete, hl]
    have hnone : (s.objectMap.filter (fun p => p.1 ≠ id)).lookup id = none :=
      lookup_filter_self _ _
    rw [hd]
    refine ⟨rfl, rfl, rfl, hnone, ?_, ?_, ?_⟩
    · simp only [hRetrieve, hnone]
    · simp only [hExists, hnone, Option.isSome_none]
    · intro j hj
      exact lookup_filter_other _ _ _ hj

/-- C6 witness: deleting the live id `0` from the one-entry state, then
retrieving it, reports not-found; deleting a non-live id is a no-op. -/
theorem heap_delete_semantics_witness :
    hRetrieve (hDelete (hAdd hInit 7).2 0).2 0 = HeapGetResult.notFound ∧
    hDelete (hAdd hInit 7).2 3 = (false, (hAdd hInit 7).2) := by
  constructor
  · exact ((heap_delete_semantics (hAdd hInit 7).2 0).2 (some 7) (by decide)).2.2.2.2.1
  · exact (heap_delete_semantics (hAdd hInit 7).2 3).1 (by decide)

/-- C10: on every reachable state, the "Invalid type cast" branch of
`Retrieve<T>`/`GetSharedPtr<T>` is unreachable — every stored pointer is
non-null and `static_pointer_cast` preserves non-nullness — so the only
reportable failure is not-found for a non-live id, and a live id always
yields its stored object whatever type the caller requests. -/
theorem heap_retrieve_cast_unreachable (s : HeapState) (hs : HeapReach s) (id : ℕ) :
    (hRetrieve s id ≠ HeapGetResult.invalidCast ∧
     hGetSharedPtr s id ≠ HeapGetResult.invalidCast) ∧
    (s.objectMap.lookup id = none →
      hRetrieve s id = HeapGetResult.notFound ∧
      hGetSharedPtr s id = HeapGetResult.notFound) ∧
    (∀ p, s.objectMap.lookup id = some p →
      ∃ w, p = some w ∧ hRetrieve s id = HeapGetResult.found w ∧
        hGetSharedPtr s id = HeapGetResult.found w) := by
  obtain ⟨-, -, -, -, -, hsome⟩ := heapInv_reach s hs
  have hfound : ∀ p, s.objectMap.lookup id = some p →
      ∃ w, p = some w ∧ hRetrieve s id = HeapGetResult.found w ∧
        hGetSharedPtr s id = HeapGetResult.found w := by
    intro p hl
    have hmem := lookup_some_mem _ _ _ hl
    have hp : p.isSome = true := hsome _ hmem
    cases p with
    | none => cases hp
    | some w =>
      refine ⟨w, rfl, ?_, ?_⟩
      · rw [hRetrieve]; simp only [hl]; rfl
      · rw [hGetSharedPtr]; simp only [hl]; rfl
  refine ⟨?_, ?_, hfound⟩
  · cases hl : s.objectMap.lookup id with
    | none =>
      constructor
      · rw [hRetrieve]; simp only [hl]; intro hc; cases hc
      · rw [hGetSharedPtr]; simp only [hl]; intro hc; cases hc
    | some p =>
      obtain ⟨w, -, hr, hg⟩ := hfound p hl
      exact ⟨(by rw [hr]; intro hc; cases hc), (by rw [hg]; intro hc; cases hc)⟩
  · intro hl
    constructor
    · rw [hRetrieve]; simp only [hl]
    · rw [hGetSharedPtr]; simp only [hl]

/-- C10 witness: on the concrete one-entry reachable state, retrieving
the live id `0` yields the stored object and never the cast error. -/
theorem heap_retrieve_cast_unreachable_witness :
    hRetrieve (hAdd hInit 7).2 0 ≠ HeapGetResult.invalidCast ∧
    hRetrieve (hAdd hInit 7).2 3 = HeapGetResult.notFound :=
  ⟨(heap_retrieve_cast_unreachable (hAdd hInit 7).2 (HeapReach.add _ 7 HeapReach.start) 0).1.1,
   ((heap_retrieve_cast_unreachable (hAdd hInit 7).2 (HeapReach.add _ 7 HeapReach.start) 3).2.1
     (by decide)).1⟩

/-! ## Slot-vector lemmas -/

theorem rotL_length (v : List ℚ) (k : ℕ) : (rotL v k).length = v.length := by
  simp [rotL]

theorem smulV_length (c : ℚ) (v : List ℚ) : (smulV c v).length = v.length := by
  simp [smulV]

theorem addV_length (u v : List ℚ) (h : u.length = v.length) :
    (addV u v).length = u.length := by
  simp [addV, h]

theorem getD_rotL (v : List ℚ) (k i : ℕ) (hi : i < v.length) :
    (rotL v k).getD i 0 = v.getD ((i + k) % v.length) 0 := by
  rw [rotL, List.getD_eq_getElem _ _ (by simpa using hi)]
  simp

theorem getD_smulV (c : ℚ) (v : List ℚ) (i : ℕ) (hi : i < v.length) :
    (smulV c v).getD i 0 = c * v.getD i 0 := by
  rw [smulV, List.getD_eq_getElem _ _ (by simpa using hi),
    List.getD_eq_getElem _ _ hi]
  simp

theorem getD_addV (u v : List ℚ) (h : u.length = v.length) (i : ℕ)
    (hi : i < u.length) :
    (addV u v).getD i 0 = u.getD i 0 + v.getD i 0 := by
  rw [addV, List.getD_eq_getElem _ _ (by simp [List.length_zipWith, ← h]; omega),
    List.getD_eq_getElem _ _ hi, List.getD_eq_getElem _ _ (h ▸ hi)]
  simp

theorem map_range_getD_self (v : List ℚ) :
    (List.range v.length).map (fun i => v.getD i 0) = v := by
  apply List.ext_getElem (by simp)
  intro i h1 h2
  simp only [List.getElem_map, List.getElem_range]
  exact List.getD_eq_getElem v 0 h2

theorem rotL_zero (v : List ℚ) : rotL v 0 = v := by
  rw [rotL]
  have h : ∀ i ∈ List.range v.length,
      v.getD ((i + 0) % v.length) 0 = v.getD i 0 := by
    intro i hi
    rw [Nat.add_zero, Nat.mod_eq_of_lt (List.mem_range.mp hi)]
  rw [List.map_congr_left h]
  exact map_range_getD_self v

/-! ## Scalar-sum lemmas -/

theorem sumR_succ (n : ℕ) (f : ℕ → ℚ) : sumR (n + 1) f = sumR n f + f n := by
  rw [sumR, sumR, List.range_succ, List.map_append, List.sum_append]
  simp

theorem sumR_add_split (m k : ℕ) (f : ℕ → ℚ) :
    sumR (m + k) f = sumR m f + sumR k (fun j => f (m + j)) := by
  rw [sumR, sumR, sumR, List.range_add, List.map_append, List.sum_append,
    List.map_map]
  rfl

theorem sumR_congr (n : ℕ) (f g : ℕ → ℚ) (h : ∀ j < n, f j = g j) :
    sumR n f = sumR n g :=
  congrArg List.sum (List.map_congr_left (fun j hj => h j (List.mem_range.mp hj)))

theorem sumR_eq_zero (n : ℕ) (f : ℕ → ℚ) (h : ∀ j < n, f j = 0) : sumR n f = 0 := by
  rw [sumR_congr n f (fun _ => 0) h, sumR]
  simp

/-! ## Generic guarded-accumulation fold lemmas

Both loops of the encrypted `Apply` have the shape "fold, conditionally
adding a vector per index"; these two lemmas give the length and the
slot-wise value of such a fold. -/

theorem foldl_guard_addV_length (l : List ℕ) (P : ℕ → Prop) [DecidablePred P]
    (w : ℕ → List ℚ)
    (init : List ℚ) (hw : ∀ j ∈ l, (w j).length = init.length) :
    (l.foldl (fun acc j => if P j then addV acc (w j) else acc) init).length
      = init.length := by
  induction l generalizing init with
  | nil => rfl
  | cons a l ih =>
    rw [List.foldl_cons]
    by_cases hpa : P a
    · rw [if_pos hpa]
      have hlen : (addV init (w a)).length = init.length :=
        addV_length _ _ (hw a (List.mem_cons_self a l)).symm
      rw [ih (addV init (w a))
        (fun j hj => by rw [hw j (List.mem_cons_of_mem a hj), hlen]), hlen]
    · rw [if_neg hpa]
      exact ih init (fun j hj => hw j (List.mem_cons_of_mem a hj))

theorem foldl_guard_addV_getD (l : List ℕ) (P : ℕ → Prop) [DecidablePred P]
    (w : ℕ → List ℚ)
    (init : List ℚ) (hw : ∀ j ∈ l, (w j).length = init.length)
    (i : ℕ) (hi : i < init.length) :
    (l.foldl (fun acc j => if P j then addV acc (w j) else acc) init).getD i 0
      = init.getD i 0 +
        (l.map (fun j => if P j then (w j).getD i 0 else 0)).sum := by
  induction l generalizing init with
  | nil => simp
  | cons a l ih =>
    rw [List.foldl_cons, List.map_cons, List.sum_cons]
    by_cases hpa : P a
    · rw [if_pos hpa, if_pos hpa]
      have hlen : (addV init (w a)).length = init.length :=
        addV_length _ _ (hw a (List.mem_cons_self a l)).symm
      rw [ih (addV init (w a))
        (fun j hj => by rw [hw j (List.mem_cons_of_mem a hj), hlen])
        (by rw [hlen]; exact hi),
        getD_addV init (w a) (hw a (List.mem_cons_self a l)).symm i hi,
        add_assoc]
    · rw [if_neg hpa, if_neg hpa]
      rw [ih init (fun j hj => hw j (List.mem_cons_of_mem a hj)) hi, zero_add]

/-! ## Baby-step list facts -/

theorem one_le_babyStepSize (cols : ℕ) : 1 ≤ babyStepSize cols :=
  Nat.succ_le_succ (Nat.zero_le _)

theorem encBabySteps_mem_length (cols : ℕ) (x : List ℚ) (v : List ℚ)
    (hv : v ∈ encBabySteps cols x) : v.length = x.length := by
  rcases List.mem_cons.mp hv with h | h
  · rw [h]
  · rcases List.mem_map.mp h with ⟨k, -, hk⟩
    rw [← hk, rotL_length]

theorem encBabySteps_length (cols : ℕ) (x : List ℚ) (hc : 1 ≤ cols) :
    (encBabySteps cols x).length = min (babyStepSize cols) cols := by
  have hb := one_le_babyStepSize cols
  simp only [encBabySteps, List.length_cons, List.length_map, List.length_range']
  omega

theorem encBabySteps_getD (cols : ℕ) (x : List ℚ) (j : ℕ)
    (hj : j < (encBabySteps cols x).length) :
    (encBabySteps cols x).getD j [] = rotL x j := by
  cases j with
  | zero =>
    show x = rotL x 0
    rw [rotL_zero]
  | succ j =>
    have hj' : j < (List.range' 1 (min (babyStepSize cols) cols - 1)).length := by
      simpa [encBabySteps] using hj
    show ((List.range' 1 (min (babyStepSize cols) cols - 1)).map
      (fun k => rotL x k)).getD j [] = rotL x (j + 1)
    rw [List.getD_eq_getElem _ _ (by simpa using hj'), List.getElem_map,
      List.getElem_range']
    norm_num [Nat.add_comm]

/-! ## Giant-step coefficient facts -/

theorem giantCoeff_zero_of_small (row0 : List ℚ) (cols b k j : ℕ)
    (htiny : ∀ c ∈ row0, c = 0 ∨ tol < |c|)
    (h : ¬ tol < |giantCoeff row0 cols b k j|) :
    giantCoeff row0 cols b k j = 0 := by
  rw [giantCoeff] at h ⊢
  by_cases hc : k * b + j < cols ∧ k * b + j < row0.length
  · rw [if_pos hc] at h ⊢
    have hmem : row0.getD (k * b + j) 0 ∈ row0 := by
      rw [List.getD_eq_getElem _ _ hc.2]
      exact List.getElem_mem hc.2
    rcases htiny _ hmem with h0 | hbig
    · exact h0
    · exact absurd hbig h
  · rw [if_neg hc]

theorem giantCoeff_zero_of_not_hasNonzero (row0 : List ℚ) (cols b k j : ℕ)
    (hj : j < b)
    (htiny : ∀ c ∈ row0, c = 0 ∨ tol < |c|)
    (h : ¬ giantHasNonzero row0 cols b k = true) :
    giantCoeff row0 cols b k j = 0 := by
  apply giantCoeff_zero_of_small row0 cols b k j htiny
  intro hbig
  apply h
  rw [giantHasNonzero, List.any_eq_true]
  rw [giantCoeff] at hbig
  by_cases hc : k * b + j < cols ∧ k * b + j < row0.length
  · rw [if_pos hc] at hbig
    refine ⟨j, List.mem_range.mpr hj, ?_⟩
    simp only [Bool.and_eq_true, decide_eq_true_eq]
    exact ⟨⟨hc.1, hc.2⟩, hbig⟩
  · rw [if_neg hc] at hbig
    norm_num [tol] at hbig

theorem giantCoeff_zero_of_ge (row0 : List ℚ) (cols b k j : ℕ)
    (h : cols ≤ j) : giantCoeff row0 cols b k j = 0 := by
  rw [giantCoeff, if_neg]
  intro hc
  omega

/-! ## BSGS parameter arithmetic -/

theorem cols_le_giant_mul (cols : ℕ) :
    cols ≤ numGiantSteps cols * babyStepSize cols := by
  have hb := one_le_babyStepSize cols
  have hdm := Nat.div_add_mod (cols + babyStepSize cols - 1) (babyStepSize cols)
  have hmlt : (cols + babyStepSize cols - 1) % babyStepSize cols
      < babyStepSize cols := Nat.mod_lt _ (by omega)
  rw [numGiantSteps, Nat.mul_comm]
  generalize hA : babyStepSize cols *
    ((cols + babyStepSize cols - 1) / babyStepSize cols) = A at hdm ⊢
  omega

theorem giant_mul_lt (cols : ℕ) (hc : 1 ≤ cols) :
    (numGiantSteps cols - 1) * babyStepSize cols < cols := by
  have hb := one_le_babyStepSize cols
  have hdm := Nat.div_add_mod (cols + babyStepSize cols - 1) (babyStepSize cols)
  rw [numGiantSteps, Nat.sub_mul, one_mul,
    Nat.mul_comm ((cols + babyStepSize cols - 1) / babyStepSize cols)
      (babyStepSize cols)]
  generalize hA : babyStepSize cols *
    ((cols + babyStepSize cols - 1) / babyStepSize cols) = A at hdm ⊢
  omega

/-! ## The block-decomposition of the column sum -/

theorem sumR_grid (g b : ℕ) (F : ℕ → ℚ) :
    sumR g (fun k => sumR b (fun j => F (k * b + j))) = sumR (g * b) F := by
  induction g with
  | zero => simp [sumR]
  | succ g ih =>
    rw [sumR_succ, ih, Nat.succ_mul, sumR_add_split]

/-! ## Value of one giant step -/

theorem foldl_guard_addV_getD_range (n : ℕ) (P : ℕ → Prop) [DecidablePred P]
    (w : ℕ → List ℚ) (init : List ℚ)
    (hw : ∀ j ∈ List.range n, (w j).length = init.length)
    (i : ℕ) (hi : i < init.length) :
    ((List.range n).foldl (fun acc j => if P j then addV acc (w j) else acc)
        init).getD i 0
      = init.getD i 0 + sumR n (fun j => if P j then (w j).getD i 0 else 0) :=
  foldl_guard_addV_getD (List.range n) P w init hw i hi

theorem sumR_extend_zero (m M : ℕ) (f : ℕ → ℚ) (hmM : m ≤ M)
    (h : ∀ j, m ≤ j → j < M → f j = 0) : sumR M f = sumR m f := by
  conv_lhs => rw [show M = m + (M - m) from by omega]
  rw [sumR_add_split]
  rw [sumR_eq_zero (M - m) (fun j => f (m + j))
    (fun j hj => h (m + j) (by omega) (by omega)), add_zero]

theorem giantInner_baby_lengths (row0 : List ℚ) (cols b k : ℕ) (x : List ℚ) :
    ∀ j ∈ List.range (min b (encBabySteps cols x).length),
      (smulV (giantCoeff row0 cols b k j)
        ((encBabySteps cols x).getD j [])).length = (smulV 0 x).length := by
  intro j hj
  rw [smulV_length, smulV_length]
  have hjlen : j < (encBabySteps cols x).length := by
    have := List.mem_range.mp hj
    omega
  rw [List.getD_eq_getElem _ _ hjlen]
  exact encBabySteps_mem_length cols x _ (List.getElem_mem hjlen)

theorem giantInner_length (row0 : List ℚ) (cols b k : ℕ) (x : List ℚ) :
    (giantInner row0 cols b k x (encBabySteps cols x)).length = x.length := by
  rw [giantInner,
    foldl_guard_addV_length _ _ _ _ (giantInner_baby_lengths row0 cols b k x),
    smulV_length]

theorem giantInner_getD (row0 : List ℚ) (cols b k : ℕ) (x : List ℚ) (i : ℕ)
    (hi : i < x.length)
    (htiny : ∀ c ∈ row0, c = 0 ∨ tol < |c|) :
    (giantInner row0 cols b k x (encBabySteps cols x)).getD i 0
      = sumR (min b (encBabySteps cols x).length)
          (fun j => giantCoeff row0 cols b k j *
            x.getD ((i + j) % x.length) 0) := by
  rw [giantInner,
    foldl_guard_addV_getD_range _ _ _ _ (giantInner_baby_lengths row0 cols b k x)
      i (by rw [smulV_length]; exact hi),
    getD_smulV 0 x i hi, zero_mul, zero_add]
  apply sumR_congr
  intro j hj
  have hjb : j < (encBabySteps cols x).length := by omega
  by_cases hP : tol < |giantCoeff row0 cols b k j|
  · rw [if_pos hP, encBabySteps_getD cols x j hjb,
      getD_smulV _ _ i (by rw [rotL_length]; exact hi), getD_rotL x j i hi]
  · rw [if_neg hP, giantCoeff_zero_of_small row0 cols b k j htiny hP, zero_mul]

/-! ## C1: the BSGS schedule refines the naive row-0 application -/

theorem colTerm_pos (row0 : List ℚ) (cols : ℕ) (x : List ℚ) (i m : ℕ)
    (h : m < cols) :
    colTerm row0 cols x i m = row0.getD m 0 * x.getD ((i + m) % x.length) 0 := by
  rw [colTerm, if_pos h]

theorem colTerm_neg (row0 : List ℚ) (cols : ℕ) (x : List ℚ) (i m : ℕ)
    (h : ¬ m < cols) : colTerm row0 cols x i m = 0 := by
  rw [colTerm, if_neg h]

/-- C1 (amended): for every initialized transform whose row 0 has length
`cols` and whose row-0 entries are each either `0` or above the `1e-10`
tolerance in magnitude, and every input slot vector `x` of length `cols`,
the encrypted BSGS `Apply` — baby-step rotations, per-giant-step weight
partial sums, rotation of the `k`-th partial by `k*b`, accumulation —
decodes slot-wise to the naive single-pass row-0 sum
`decoded[i] = Σ_j matrix[0][j] * x[(i+j) mod slots]`, i.e. it equals
`Σ_j matrix[0][j] * Rotate(x, j)`. -/
theorem enc_apply_bsgs_refines_naive (t : OLT) (x : List ℚ)
    (hinit : t.initialized = true)
    (hrow0 : (t.matrix.headD []).length = t.cols)
    (hx : x.length = t.cols)
    (htiny : ∀ c ∈ t.matrix.headD [], c = 0 ∨ tol < |c|) :
    encApply t x = some (bsgsNaive t x) := by
  rcases Nat.eq_zero_or_pos t.cols with hc0 | hcpos
  · have hx0 : x = [] := List.eq_nil_of_length_eq_zero (by omega)
    rw [hx0]
    simp [encApply, hinit, bsgsNaive, hc0, numGiantSteps, babyStepSize, isqrt,
      isqrtGo, smulV, sumR]
  · rw [encApply, if_pos hinit]
    refine congrArg some ?_
    have hn : 0 < x.length := by omega
    have hwterm : ∀ k ∈ List.range (numGiantSteps t.cols),
        (if 0 < k * babyStepSize t.cols then
            rotL (giantInner (t.matrix.headD []) t.cols (babyStepSize t.cols) k x
              (encBabySteps t.cols x)) (k * babyStepSize t.cols)
          else
            giantInner (t.matrix.headD []) t.cols (babyStepSize t.cols) k x
              (encBabySteps t.cols x)).length = (smulV 0 x).length := by
      intro k _
      rw [smulV_length]
      by_cases hk : 0 < k * babyStepSize t.cols
      · rw [if_pos hk, rotL_length, giantInner_length]
      · rw [if_neg hk, giantInner_length]
    apply List.ext_getElem
    · rw [foldl_guard_addV_length _ _ _ _ hwterm, smulV_length, bsgsNaive,
        List.length_map, List.length_range]
    · intro i h1 h2
      have hilen : i < x.length := by
        simpa [bsgsNaive] using h2
      rw [← List.getD_eq_getElem _ 0 h1, ← List.getD_eq_getElem _ 0 h2]
      rw [foldl_guard_addV_getD_range _ _ _ _ hwterm i
        (by rw [smulV_length]; exact hilen)]
      rw [getD_smulV 0 x i hilen, zero_mul, zero_add]
      have hrhs : (bsgsNaive t x).getD i 0
          = sumR t.cols (fun j =>
              (t.matrix.headD []).getD j 0 * x.getD ((i + j) % x.length) 0) := by
        rw [bsgsNaive, List.getD_eq_getElem _ 0 (by simpa using hilen)]
        simp only [List.getElem_map, List.getElem_range]
      rw [hrhs]
      have hterm : ∀ k, k < numGiantSteps t.cols →
          (if giantHasNonzero (t.matrix.headD []) t.cols (babyStepSize t.cols) k
              = true then
            (if 0 < k * babyStepSize t.cols then
              rotL (giantInner (t.matrix.headD []) t.cols (babyStepSize t.cols) k x
                (encBabySteps t.cols x)) (k * babyStepSize t.cols)
            else
              giantInner (t.matrix.headD []) t.cols (babyStepSize t.cols) k x
                (encBabySteps t.cols x)).getD i 0
          else 0)
          = sumR (babyStepSize t.cols) (fun j =>
              giantCoeff (t.matrix.headD []) t.cols (babyStepSize t.cols) k j *
                x.getD ((i + (k * babyStepSize t.cols + j)) % x.length) 0) := by
        intro k hk
        have hval : (if 0 < k * babyStepSize t.cols then
              rotL (giantInner (t.matrix.headD []) t.cols (babyStepSize t.cols) k x
                (encBabySteps t.cols x)) (k * babyStepSize t.cols)
            else
              giantInner (t.matrix.headD []) t.cols (babyStepSize t.cols) k x
                (encBabySteps t.cols x)).getD i 0
            = sumR (min (babyStepSize t.cols) (encBabySteps t.cols x).length)
                (fun j =>
                  giantCoeff (t.matrix.headD []) t.cols (babyStepSize t.cols) k j *
                    x.getD ((i + (k * babyStepSize t.cols + j)) % x.length) 0) := by
          by_cases hk0 : 0 < k * babyStepSize t.cols
          · rw [if_pos hk0,
              getD_rotL _ _ i (by rw [giantInner_length]; exact hilen),
              giantInner_length,
              giantInner_getD (t.matrix.headD []) t.cols (babyStepSize t.cols) k x
                ((i + k * babyStepSize t.cols) % x.length) (Nat.mod_lt _ hn) htiny]
            apply sumR_congr
            intro j hj
            rw [Nat.mod_add_mod, Nat.add_assoc]
          · rw [if_neg hk0,
              giantInner_getD (t.matrix.headD []) t.cols (babyStepSize t.cols) k x
                i hilen htiny]
            have hk00 : k * babyStepSize t.cols = 0 := Nat.eq_zero_of_not_pos hk0
            apply sumR_congr
            intro j hj
            rw [hk00, Nat.zero_add]
        by_cases hP : giantHasNonzero (t.matrix.headD []) t.cols
            (babyStepSize t.cols) k = true
        · rw [if_pos hP, hval]
          have hmb : min (babyStepSize t.cols) (encBabySteps t.cols x).length
              = min (babyStepSize t.cols) t.cols := by
            rw [encBabySteps_length t.cols x hcpos]
            omega
          rw [hmb]
          rcases Nat.le_total (babyStepSize t.cols) t.cols with hbc | hbc
          · rw [min_eq_left hbc]
          · rw [min_eq_right hbc]
            symm
            apply sumR_extend_zero t.cols (babyStepSize t.cols) _ hbc
            intro j hjge hjlt
            rw [giantCoeff_zero_of_ge _ _ _ _ _ hjge, zero_mul]
        · rw [if_neg hP]
          symm
          apply sumR_eq_zero
          intro j hj
          rw [giantCoeff_zero_of_not_hasNonzero _ _ _ _ _ hj htiny hP, zero_mul]
      rw [sumR_congr _ _ _ hterm]
      have hF : ∀ k, k < numGiantSteps t.cols →
          sumR (babyStepSize t.cols) (fun j =>
            giantCoeff (t.matrix.headD []) t.cols (babyStepSize t.cols) k j *
              x.getD ((i + (k * babyStepSize t.cols + j)) % x.length) 0)
          = sumR (babyStepSize t.cols) (fun j =>
              colTerm (t.matrix.headD []) t.cols x i
                (k * babyStepSize t.cols + j)) := by
        intro k hk
        apply sumR_congr
        intro j hj
        by_cases hm : k * babyStepSize t.cols + j < t.cols
        · rw [giantCoeff, if_pos ⟨hm, by rw [hrow0]; exact hm⟩,
            colTerm_pos _ _ _ _ _ hm]
        · rw [giantCoeff, if_neg (fun hc => hm hc.1),
            colTerm_neg _ _ _ _ _ hm, zero_mul]
      rw [sumR_congr _ _ _ hF, sumR_grid]
      have hFzero : ∀ m, t.cols ≤ m →
          m < numGiantSteps t.cols * babyStepSize t.cols →
          colTerm (t.matrix.headD []) t.cols x i m = 0 := by
        intro m hmge hmlt
        rw [colTerm_neg _ _ _ _ _ (by omega)]
      rw [sumR_extend_zero t.cols (numGiantSteps t.cols * babyStepSize t.cols) _
        (cols_le_giant_mul t.cols) hFzero]
      apply sumR_congr
      intro m hm
      rw [colTerm_pos _ _ _ _ _ hm]

/-- C1 witness: the spec's own test case — row 0 of `[[2,0],[0,3]]`
applied to the encryption of `[1,4]` decodes to the naive row-0 sum
(which is `[2,8]`). -/
theorem enc_apply_bsgs_refines_naive_witness :
    encApply (oltFromFlat [2, 0, 0, 3] 2 2) [1, 4]
      = some (bsgsNaive (oltFromFlat [2, 0, 0, 3] 2 2) [1, 4]) := by
  have hm : (oltFromFlat [2, 0, 0, 3] 2 2).matrix.headD [] = [2, 0] := by
    norm_num [oltFromFlat, List.range_succ]
  apply enc_apply_bsgs_refines_naive
  · rfl
  · rw [hm]; rfl
  · rfl
  · rw [hm]
    intro c hc
    rcases List.mem_cons.mp hc with h | h
    · right
      rw [h, abs_of_pos (by norm_num)]
      norm_num [tol]
    · left
      simpa using h

/-- C1 counterexample: with the single matrix entry `1e-11` (non-zero but
below the `1e-10` tolerance), the BSGS `Apply` skips the only giant step
and returns an encryption of `0`, while the naive row-0 sum is `1e-11`;
the claimed equivalence fails for this initialized transform. -/
theorem enc_apply_bsgs_tiny_coeff_cex :
    encApply (oltFromFlat [1 / 10 ^ 11] 1 1) [1]
      ≠ some (bsgsNaive (oltFromFlat [1 / 10 ^ 11] 1 1) [1]) := by
  have h : ¬ ((1 : ℚ) / 10000000000 < |1 / 100000000000|) := by
    rw [abs_of_pos (by norm_num)]
    norm_num
  norm_num [encApply, oltFromFlat, numGiantSteps, babyStepSize, isqrt, isqrtGo,
    encBabySteps, giantHasNonzero, giantInner, giantCoeff, rotL, smulV, addV, tol,
    sumR, bsgsNaive, List.range_succ, h]

/-! ## C9: only row 0 (and the dimensions) matter -/

/-- C9: the encrypted `Apply` reads only `initialized`, `cols` and row 0
of the matrix: two transforms agreeing on those (and on `rows`) produce
identical results on every input ciphertext — rows `1..rows-1` never
influence the output. -/
theorem enc_apply_row0_only (t1 t2 : OLT) (x : List ℚ)
    (_hr : t1.rows = t2.rows) (hc : t1.cols = t2.cols)
    (h0 : t1.matrix.headD [] = t2.matrix.headD [])
    (hi : t1.initialized = t2.initialized) :
    encApply t1 x = encApply t2 x := by
  simp only [encApply, hc, h0, hi]

/-- C9 witness: `[[1,2],[3,4]]` and `[[1,2],[9,9]]` differ in row 1 but
produce the same encrypted result. -/
theorem enc_apply_row0_only_witness :
    encApply (oltFromFlat [1, 2, 3, 4] 2 2) [5, 7]
      = encApply (oltFromFlat [1, 2, 9, 9] 2 2) [5, 7] := by
  apply enc_apply_row0_only
  · rfl
  · rfl
  · rfl
  · rfl

/-! ## C7: the plaintext Apply -/

/-- C7: for every initialized transform, the plaintext `Apply` fails
exactly when the input length differs from `cols`, and otherwise returns
the length-`rows` vector with `result[i] = Σ_j matrix[i][j] * input[j]`;
in particular the `2×2` identity applied to `[3,4]` gives `[3,4]`. -/
theorem apply_plain_correct :
    (∀ (t : OLT) (input : List ℚ), t.initialized = true →
      ((t.applyPlain input = none ↔ input.length ≠ t.cols) ∧
       (∀ r, t.applyPlain input = some r →
         r.length = t.rows ∧
         ∀ i, i < t.rows →
           r.getD i 0
             = sumR t.cols (fun j =>
                 (t.matrix.getD i []).getD j 0 * input.getD j 0)))) ∧
    (oltFromFlat [1, 0, 0, 1] 2 2).applyPlain [3, 4] = some [3, 4] := by
  constructor
  · intro t input hinit
    constructor
    · rw [OLT.applyPlain, if_pos hinit]
      by_cases hlen : input.length = t.cols
      · rw [if_pos hlen]
        simp [hlen]
      · rw [if_neg hlen]
        simp [hlen]
    · intro r hr
      rw [OLT.applyPlain, if_pos hinit] at hr
      by_cases hlen : input.length = t.cols
      · rw [if_pos hlen] at hr
        have hre := (Option.some_inj.mp hr).symm
        rw [hre]
        constructor
        · simp
        · intro i hi
          rw [List.getD_eq_getElem _ 0 (by simpa using hi)]
          simp only [List.getElem_map, List.getElem_range]
      · rw [if_neg hlen] at hr
        cases hr
  · norm_num [OLT.applyPlain, oltFromFlat, sumR, List.range_succ]

/-- C7 witness: the identity transform rejects a length-1 input
(dimension mismatch) and accepts `[3,4]`. -/
theorem apply_plain_correct_witness :
    (oltFromFlat [1, 0, 0, 1] 2 2).applyPlain [3] = none :=
  ((apply_plain_correct.1 (oltFromFlat [1, 0, 0, 1] 2 2) [3] rfl).1).mpr
    (by decide)

/-! ## C8: construction from a nested sequence -/

/-- C8 counterexample: `CreateLinearTransform` on the empty nested
sequence reports failure (`-1`, modelled `none`) — the constructor's
early return leaves `initialized = false` — rather than yielding a
usable `0×0` transform handle. -/
theorem from_rows_empty_rejected_cex :
    createLinearTransformRows ([] : List (List ℚ)) = none := rfl

/-- C8 (amended): construction from a nested sequence fails exactly when
the input is empty or the row lengths are inconsistent; a successful
construction yields the initialized transform with `rows = m.length`,
`cols = first row length` and the given matrix.  The empty input does
not yield a usable `0×0` handle. -/
theorem from_rows_spec (m : List (List ℚ)) :
    (createLinearTransformRows m = none ↔
      (m = [] ∨ ¬ ∀ row ∈ m, row.length = (m.headD []).length)) ∧
    (∀ t, createLinearTransformRows m = some t →
      t.rows = m.length ∧ t.cols = (m.headD []).length ∧ t.matrix = m ∧
      t.initialized = true) := by
  by_cases he : m.isEmpty
  · have hme : m = [] := List.isEmpty_iff.mp he
    subst hme
    constructor
    · simp [createLinearTransformRows, oltFromRows]
    · intro t ht
      simp [createLinearTransformRows, oltFromRows] at ht
  · have hme : m ≠ [] := fun hc => he (by rw [hc]; rfl)
    by_cases hall : m.all (fun row => row.length = (m.headD []).length)
    · have hall' : ∀ row ∈ m, row.length = (m.headD []).length := by
        intro row hrow
        exact of_decide_eq_true (List.all_eq_true.mp hall row hrow)
      have ho : oltFromRows m =
          { rows := m.length, cols := (m.headD []).length, matrix := m,
            initialized := true } := by
        rw [oltFromRows, if_neg he, if_pos hall]
      constructor
      · constructor
        · intro hc
          rw [createLinearTransformRows, ho] at hc
          simp at hc
        · intro hc
          rcases hc with hc | hc
          · exact absurd hc hme
          · exact absurd hall' hc
      · intro t ht
        rw [createLinearTransformRows, ho] at ht
        simp at ht
        rw [← ht]
        refine ⟨rfl, ?_, rfl, rfl⟩
        simp [List.headD_eq_head?]
    · have ho : oltFromRows m =
          { rows := 0, cols := 0, matrix := [], initialized := false } := by
        rw [oltFromRows, if_neg he, if_neg hall]
      have hnone : createLinearTransformRows m = none := by
        rw [createLinearTransformRows, ho]
        rfl
      constructor
      · rw [hnone]
        constructor
        · intro _
          right
          intro hforall
          exact hall (List.all_eq_true.mpr
            (fun row hrow => decide_eq_true (hforall row hrow)))
        · intro _
          rfl
      · intro t ht
        rw [hnone] at ht
        cases ht
    
/-- C8 witness: a consistent `2×2` nested input constructs successfully
with the right dimensions. -/
theorem from_rows_spec_witness :
    (oltFromRows [[(1 : ℚ), 2], [3, 4]]).rows = 2 :=
  ((from_rows_spec [[(1 : ℚ), 2], [3, 4]]).2
    (oltFromRows [[(1 : ℚ), 2], [3, 4]]) rfl).1

/-! ## Integer-square-root facts -/

theorem isqrtGo_spec (m : ℕ) : ∀ fuel k, k * k ≤ m →
    isqrtGo m fuel k * isqrtGo m fuel k ≤ m ∧
    (m < (isqrtGo m fuel k + 1) * (isqrtGo m fuel k + 1) ∨
      isqrtGo m fuel k = k + fuel) := by
  intro fuel
  induction fuel with
  | zero =>
    intro k hk
    exact ⟨hk, Or.inr rfl⟩
  | succ fuel ih =>
    intro k hk
    rw [isqrtGo]
    by_cases hstep : (k + 1) * (k + 1) ≤ m
    · rw [if_pos hstep]
      rcases ih (k + 1) hstep with ⟨h1, h2⟩
      refine ⟨h1, ?_⟩
      rcases h2 with h2 | h2
      · exact Or.inl h2
      · exact Or.inr (by omega)
    · rw [if_neg hstep]
      exact ⟨hk, Or.inl (by omega)⟩

theorem isqrt_le (m : ℕ) : isqrt m * isqrt m ≤ m :=
  (isqrtGo_spec m m 0 (by omega)).1

theorem lt_isqrt_succ (m : ℕ) : m < (isqrt m + 1) * (isqrt m + 1) := by
  rcases (isqrtGo_spec m m 0 (by omega)).2 with h | h
  · exact h
  · rw [isqrt, h]
    have h1 : 0 + m + 1 ≤ (0 + m + 1) * (0 + m + 1) :=
      Nat.le_mul_of_pos_left _ (by omega)
    omega

/-- `ceilSqrt n` really is the ceiling of the square root: it dominates
`n` when squared, and is the least natural to do so. -/
theorem ceilSqrt_spec (n : ℕ) :
    n ≤ ceilSqrt n * ceilSqrt n ∧ ∀ k, n ≤ k * k → ceilSqrt n ≤ k := by
  rw [ceilSqrt]
  by_cases hsq : isqrt n * isqrt n = n
  · rw [if_pos hsq]
    refine ⟨le_of_eq hsq.symm, ?_⟩
    intro k hk
    by_contra hlt
    push_neg at hlt
    have := Nat.mul_self_lt_mul_self hlt
    omega
  · rw [if_neg hsq]
    have h1 := isqrt_le n
    have h2 := lt_isqrt_succ n
    refine ⟨by omega, ?_⟩
    intro k hk
    by_contra hlt
    push_neg at hlt
    have : k * k ≤ isqrt n * isqrt n := Nat.mul_le_mul (by omega) (by omega)
    omega

/-! ## C3: the BSGS parameters the code actually uses -/

/-- C3 counterexample: at `cols = 4` (a perfect square) the code's baby
step size `floor(sqrt 4) + 1 = 3` differs from the claimed
`ceil(sqrt 4) = 2`, and `Apply` builds 3 baby-step ciphertexts, not 2. -/
theorem bsgs_ceil_sqrt_cex :
    babyStepSize 4 ≠ ceilSqrt 4 ∧
    (encBabySteps 4 [1, 1, 1, 1]).length ≠ ceilSqrt 4 := by
  constructor
  · decide
  · show (encBabySteps 4 [1, 1, 1, 1]).length ≠ 2
    rw [encBabySteps]
    simp [babyStepSize, isqrt, isqrtGo]

/-- C3 (amended): for `cols ≥ 1` the encrypted `Apply` uses baby-step
size `b = floor(sqrt cols) + 1` (which equals `ceil(sqrt cols)` exactly
when `cols` is not a perfect square), produces `min(b, cols)` baby-step
ciphertexts — `rot[0]` being the unrotated input and `rot[j] = Rotate(x, j)`,
so `min(b, cols) - 1` rotations — and its giant-step count
`g = (cols + b - 1) / b` is exactly `ceil(cols / b)`:
`(g-1)·b < cols ≤ g·b`. -/
theorem bsgs_parameters_spec (cols : ℕ) (x : List ℚ) (hc : 1 ≤ cols) :
    (encBabySteps cols x).length = min (babyStepSize cols) cols ∧
    (encBabySteps cols x).getD 0 [] = x ∧
    (∀ j, j < (encBabySteps cols x).length →
      (encBabySteps cols x).getD j [] = rotL x j) ∧
    cols ≤ numGiantSteps cols * babyStepSize cols ∧
    (numGiantSteps cols - 1) * babyStepSize cols < cols ∧
    (isqrt cols * isqrt cols ≠ cols → babyStepSize cols = ceilSqrt cols) := by
  refine ⟨encBabySteps_length cols x hc, rfl, ?_, cols_le_giant_mul cols,
    giant_mul_lt cols hc, ?_⟩
  · intro j hj
    exact encBabySteps_getD cols x j hj
  · intro hns
    rw [ceilSqrt, if_neg hns, babyStepSize]

/-- C3 witness: the amended parameter facts evaluated at `cols = 10`. -/
theorem bsgs_parameters_spec_witness :
    (encBabySteps 10 (List.replicate 10 (1 : ℚ))).length
      = min (babyStepSize 10) 10 :=
  (bsgs_parameters_spec 10 (List.replicate 10 1) (by decide)).1

/-! ## C2: the rotation-key sets exposed to callers -/

/-- C2 counterexample: for a stored `1×10` transform the C interface
returns the offsets `1..9` (`GetLinearTransformRotationKeys`) and `[1]`
(`GetLinearTransformRotationKeysArray`), not the BSGS requirement
`{1,2,3} ∪ {4,8}` the claim states (e.g. offset `5` is returned but is
not in the claimed set). -/
theorem rotation_keys_bsgs_set_cex :
    getLTRotationKeys (oltFromFlat (List.replicate 10 1) 1 10) 100
      = some [1, 2, 3, 4, 5, 6, 7, 8, 9] ∧
    getLTRotationKeysArray (oltFromFlat (List.replicate 10 1) 1 10) = [1] ∧
    bsgsKeySpec 10 = [1, 2, 3, 4, 8] ∧
    5 ∈ [1, 2, 3, 4, 5, 6, 7, 8, 9] ∧ 5 ∉ bsgsKeySpec 10 := by
  refine ⟨?_, rfl, by decide, by decide, by decide⟩
  rw [getLTRotationKeys]
  norm_num [oltFromFlat, List.range_succ]

/-- C2 (amended): for a transform with `1 ≤ cols < 2^64` and a non-empty
output buffer, `GetLinearTransformRotationKeys` returns exactly the
offsets `{1, …, min(cols-1, max_keys)}`, and
`GetLinearTransformRotationKeysArray` always returns `{1}`; neither
computes the BSGS offset set. -/
theorem rotation_keys_exposed_spec (t : OLT) (maxKeys : ℕ)
    (hmk : maxKeys ≠ 0) (hc : 1 ≤ t.cols) (hlt : t.cols < 2 ^ 64) :
    (∃ keys, getLTRotationKeys t maxKeys = some keys ∧
      keys.length = min (t.cols - 1) maxKeys ∧
      (∀ off, off ∈ keys ↔ 1 ≤ off ∧ off ≤ min (t.cols - 1) maxKeys)) ∧
    getLTRotationKeysArray t = [1] := by
  have hw : (t.cols + (2 ^ 64 - 1)) % 2 ^ 64 = t.cols - 1 := by omega
  refine ⟨⟨(List.range (min (t.cols - 1) maxKeys)).map (fun i => i + 1),
    ?_, by simp, ?_⟩, rfl⟩
  · rw [getLTRotationKeys, if_neg hmk, hw]
  · intro off
    simp only [List.mem_map, List.mem_range]
    constructor
    · rintro ⟨i, hi, rfl⟩
      omega
    · intro h
      exact ⟨off - 1, by omega, by omega⟩

/-- C2 witness: the amended key-set facts at the `1×10` transform with a
buffer of 100. -/
theorem rotation_keys_exposed_spec_witness :
    (∃ keys, getLTRotationKeys (oltFromFlat (List.replicate 10 1) 1 10) 100
        = some keys ∧
      keys.length = min ((oltFromFlat (List.replicate 10 1) 1 10).cols - 1) 100 ∧
      (∀ off, off ∈ keys ↔ 1 ≤ off ∧
        off ≤ min ((oltFromFlat (List.replicate 10 1) 1 10).cols - 1) 100)) ∧
    getLTRotationKeysArray (oltFromFlat (List.replicate 10 1) 1 10) = [1] :=
  rotation_keys_exposed_spec (oltFromFlat (List.replicate 10 1) 1 10) 100
    (by decide) (by decide) (by decide)
